import Mathlib

/-!
Verification of the shadow-html-renderer repository.

The development shallowly embeds the TypeScript sources:

* `src/styles/cssUtils.ts` — comment stripping, `@font-face` block
  extraction by brace counting, `@import` matching, URL resolution and
  `url(...)` rebasing;
* `src/styles/fontFaceCollector.ts` — recursive collection of
  `@font-face` rules from a parsed document (inline styles, linked
  stylesheets, `@import` chains) with a visited-URL set;
* `src/styles/fontInjector.ts` — deduplicated injection into the shared
  style sink;
* `src/renderers/shadowRenderer.ts` — `renderIntoShadowRoot` and
  `clearShadowRoot`.

JavaScript strings are modelled as `List Char`.  Host-environment
collaborators (the WHATWG `URL` constructor, `fetch`, the DOM, the HTML
parser) are modelled explicitly; repository code that is referenced but
absent from the sources (the script replay engine of
`renderers/directRenderer.ts`) is modelled from the design document and
marked as such.
-/

namespace ShadowHtml

/-- JavaScript strings viewed as lists of characters. -/
abbrev Str := List Char

/-- Character list of a Lean string literal (used to write examples). -/
def str (s : String) : Str := s.data

/-- The apostrophe character. -/
def apos : Char := Char.ofNat 39

/-- JavaScript whitespace (the `\s` class restricted to ASCII plus NBSP,
which is what the CSS sources here can contain). -/
def jsWs (c : Char) : Bool :=
  c = ' ' || c = '\t' || c = '\n' || c = '\r' ||
  c = Char.ofNat 11 || c = Char.ofNat 12 || c = Char.ofNat 160

/-- Model of `String.prototype.trim`. -/
def trimStr (s : Str) : Str :=
  ((s.dropWhile jsWs).reverse.dropWhile jsWs).reverse

/-- Model of `String.prototype.toLowerCase` (ASCII). -/
def lowerStr (s : Str) : Str := s.map Char.toLower

/-- Case-insensitive prefix test (ASCII). -/
def ciPrefix (needle hay : Str) : Bool :=
  (lowerStr needle).isPrefixOf (lowerStr hay)

/-- Model of `String.prototype.includes`: substring containment. -/
def strContains (hay needle : Str) : Bool :=
  (List.range (hay.length + 1)).any (fun i => needle.isPrefixOf (hay.drop i))

/-- Model of `String.prototype.indexOf(needle, start)`: the least index
`i ≥ start` at which `needle` occurs, if any. -/
def findFrom (hay needle : Str) (start : Nat) : Option Nat :=
  (List.range (hay.length + 1)).find?
    (fun i => decide (start ≤ i) && needle.isPrefixOf (hay.drop i))

/-- Model of `String.prototype.substring(a, b)` (for `a ≤ b`). -/
def sliceStr (s : Str) (a b : Nat) : Str := (s.take b).drop a

/-- `strContains` agrees with list infix containment. -/
theorem strContains_infix_iff (hay needle : Str) :
    strContains hay needle = true ↔ needle <:+: hay := by
  constructor
  · intro h
    rcases List.any_eq_true.mp h with ⟨i, _, hp⟩
    have hpre : needle <+: hay.drop i := List.isPrefixOf_iff_prefix.mp hp
    exact hpre.isInfix.trans (List.drop_suffix i hay).isInfix
  · rintro ⟨u, v, huv⟩
    refine List.any_eq_true.mpr ⟨u.length, ?_, ?_⟩
    · refine List.mem_range.mpr ?_
      have : u.length ≤ hay.length := by
        subst huv; simp [List.length_append]
      omega
    · refine List.isPrefixOf_iff_prefix.mpr ?_
      subst huv
      simp [List.drop_left]

/-- Containment is preserved by appending on the right. -/
theorem strContains_append_right (s t needle : Str)
    (h : strContains s needle = true) :
    strContains (s ++ t) needle = true := by
  rw [strContains_infix_iff] at h ⊢
  exact h.trans (List.prefix_append s t).isInfix

/-- Containment is preserved by appending on the left. -/
theorem strContains_append_left (s t needle : Str)
    (h : strContains t needle = true) :
    strContains (s ++ t) needle = true := by
  rw [strContains_infix_iff] at h ⊢
  exact h.trans (List.suffix_append s t).isInfix

/-!
### Font injector (`src/styles/fontInjector.ts`, `injectFontFaces`)

The sink is the text content of the `<style id="shadow-dom-fonts">`
element in the host document head; a missing element is created with
empty text, so the sink is modelled as that text.  The function appends
every rule not already contained in the text read at the start of the
call, joining appended rules with a newline.
-/

/-- One step of the rule-accumulation loop of `injectFontFaces`. -/
def injectStep (existing : Str) (appended : Str) (rule : Str) : Str :=
  if strContains existing rule then appended
  else appended ++ (if appended ≠ [] then ['\n'] else []) ++ rule

/-- `injectFontFaces` from `src/styles/fontInjector.ts`, as a function
from the rule iterable and the sink text at call start to the sink text
after the call. -/
def injectFontFaces (rules : List Str) (sinkText : Str) : Str :=
  let existing := sinkText
  let appended := rules.foldl (injectStep existing) []
  if appended ≠ [] then
    sinkText ++ (if sinkText ≠ [] then ['\n'] else []) ++ appended
  else sinkText

/-- Join a list of rule texts with single newlines, the shape produced
by the accumulation loop of `injectFontFaces`. -/
def joinNL (xs : List Str) : Str :=
  match xs with
  | [] => []
  | r :: rs => r ++ rs.flatMap (fun x => '\n' :: x)

/-- The rules of the input that are not yet contained in the sink text. -/
def newRules (rules : List Str) (sinkText : Str) : List Str :=
  rules.filter (fun r => !strContains sinkText r)

/-- The empty string is contained in every string. -/
theorem strContains_nil (hay : Str) : strContains hay [] = true := by
  refine List.any_eq_true.mpr ⟨0, ?_, ?_⟩
  · exact List.mem_range.mpr (Nat.succ_pos _)
  · simp [List.isPrefixOf]

/-- A rule that survives the containment filter is nonempty. -/
theorem newRules_ne_nil (rules : List Str) (sinkText : Str) :
    ∀ r ∈ newRules rules sinkText, r ≠ [] := by
  intro r hr
  have := List.of_mem_filter hr
  intro hnil
  subst hnil
  simp [strContains_nil] at this

/-- Accumulation loop of `injectFontFaces`, starting from a nonempty
accumulator: it appends each new rule preceded by a newline. -/
theorem foldl_injectStep_ne (e : Str) (rules : List Str) :
    ∀ acc : Str, acc ≠ [] →
      rules.foldl (injectStep e) acc =
        acc ++ (rules.filter (fun r => !strContains e r)).flatMap
          (fun x => '\n' :: x) := by
  induction rules with
  | nil => intro acc _; simp
  | cons r rs ih =>
    intro acc hacc
    by_cases hc : strContains e r = true
    · simp [List.foldl_cons, injectStep, hc, ih acc hacc]
    · have hc' : strContains e r = false := by
        simpa [Bool.not_eq_true] using hc
      have hstep : injectStep e acc r = acc ++ '\n' :: r := by
        simp [injectStep, hc', hacc]
      have hne : acc ++ '\n' :: r ≠ [] := by simp
      simp [List.foldl_cons, hstep, ih _ hne, hc']

/-- Accumulation loop of `injectFontFaces` from the empty accumulator:
it produces the new rules joined with single newlines. -/
theorem foldl_injectStep_nil (e : Str) (rules : List Str) :
    rules.foldl (injectStep e) [] = joinNL (newRules rules e) := by
  induction rules with
  | nil => simp [joinNL, newRules]
  | cons r rs ih =>
    by_cases hc : strContains e r = true
    · simp [List.foldl_cons, injectStep, hc, ih, newRules]
    · have hc' : strContains e r = false := by
        simpa [Bool.not_eq_true] using hc
      have hr : r ≠ [] := by
        intro hnil; subst hnil; simp [strContains_nil] at hc'
      have hstep : injectStep e [] r = r := by
        simp [injectStep, hc']
      rw [List.foldl_cons, hstep,
        foldl_injectStep_ne e rs r hr]
      simp [newRules, hc', joinNL]

/-- Full characterisation of one `injectFontFaces` call. -/
theorem injectFontFaces_eq (rules : List Str) (sinkText : Str) :
    injectFontFaces rules sinkText =
      if newRules rules sinkText = [] then sinkText
      else
        (sinkText ++ (if sinkText ≠ [] then ['\n'] else [])) ++
          joinNL (newRules rules sinkText) := by
  simp only [injectFontFaces, foldl_injectStep_nil]
  by_cases hn : newRules rules sinkText = []
  · simp [hn, joinNL]
  · have hjoin : joinNL (newRules rules sinkText) ≠ [] := by
      rcases List.exists_cons_of_ne_nil hn with ⟨r, rs, hrs⟩
      have hr : r ≠ [] := by
        refine newRules_ne_nil rules sinkText r ?_
        rw [hrs]; exact List.mem_cons_self r rs
      rw [hrs]
      simp [joinNL]
      intro h; exact absurd h hr
    simp [hn, hjoin]

/-- Every element of a joined rule list is an infix of the join. -/
theorem infix_joinNL (xs : List Str) : ∀ r ∈ xs, r <:+: joinNL xs := by
  induction xs with
  | nil => intro r hr; cases hr
  | cons x xs ih =>
    intro r hr
    rcases List.mem_cons.mp hr with h | h
    · subst h
      exact (List.prefix_append r _).isInfix
    · have hseg : r <:+: xs.flatMap (fun x => '\n' :: x) := by
        clear ih hr
        induction xs with
        | nil => cases h
        | cons y ys ihy =>
          rcases List.mem_cons.mp h with h1 | h1
          · subst h1
            refine ⟨['\n'], ys.flatMap (fun x => '\n' :: x), ?_⟩
            simp
          · exact (ihy h1).trans (List.suffix_append _ _).isInfix
      exact hseg.trans (List.suffix_append x _).isInfix

/-- After one `injectFontFaces` call, every input rule is contained in
the sink text. -/
theorem strContains_injectFontFaces (rules : List Str) (sinkText : Str) :
    ∀ r ∈ rules, strContains (injectFontFaces rules sinkText) r = true := by
  intro r hr
  rw [injectFontFaces_eq]
  by_cases hc : strContains sinkText r = true
  · by_cases hn : newRules rules sinkText = []
    · simpa [hn] using hc
    · simp only [hn, if_neg]
      refine strContains_append_right _ _ _ ?_
      exact strContains_append_right _ _ _ hc
  · have hmem : r ∈ newRules rules sinkText := by
      refine List.mem_filter.mpr ⟨hr, ?_⟩
      simp [Bool.not_eq_true] at hc
      simp [hc]
    have hn : newRules rules sinkText ≠ [] := by
      intro h; rw [h] at hmem; cases hmem
    simp only [hn, if_neg]
    refine strContains_append_left _ _ _ ?_
    exact (strContains_infix_iff _ _).mpr (infix_joinNL _ r hmem)

/-- Injecting the same rule list twice is the same as injecting once. -/
theorem injectFontFaces_idem (rules : List Str) (sinkText : Str) :
    injectFontFaces rules (injectFontFaces rules sinkText) =
      injectFontFaces rules sinkText := by
  have hempty : newRules rules (injectFontFaces rules sinkText) = [] := by
    refine List.filter_eq_nil_iff.mpr ?_
    intro r hr
    simp [strContains_injectFontFaces rules sinkText r hr]
  rw [injectFontFaces_eq, hempty]
  simp

/-!
### CSS text utilities (`src/styles/cssUtils.ts`)
-/

/-- The opening brace character (written by code point). -/
def lbrace : Char := Char.ofNat 123

/-- The closing brace character (written by code point). -/
def rbrace : Char := Char.ofNat 125

/-- `stripComments` scan: remove each segment from a `/*` to the nearest
following `*/`; an unclosed `/*` is left in place (the lazy global regex
of the source finds no further match then).  Fuel is the string length;
every step consumes at least four characters. -/
def stripGo : Nat → Str → Str
  | 0, s => s
  | fuel + 1, s =>
    match findFrom s (str "/*") 0 with
    | none => s
    | some i =>
      match findFrom s (str "*/") (i + 2) with
      | none => s
      | some j => sliceStr s 0 i ++ stripGo fuel (s.drop (j + 2))

/-- `stripComments` from `src/styles/cssUtils.ts`. -/
def stripComments (css : Str) : Str := stripGo css.length css

/-- The `@font-face` token searched for by the extractor. -/
def ffTok : Str := str "@font-face"

/-- The brace-counting inner loop of `extractFontFaceBlocks`: given the
characters after the opening brace and the current depth, return how many
characters the loop consumes until the depth reaches zero, or `none` when
the scan runs off the end of the string with unbalanced braces. -/
def braceScan : Str → Nat → Option Nat
  | [], _ => none
  | c :: rest, depth =>
    let d2 := if c = lbrace then depth + 1 else if c = rbrace then depth - 1 else depth
    if d2 = 0 then some 1 else (braceScan rest d2).map (· + 1)

/-- Outer loop of `extractFontFaceBlocks` over the scan position.  Fuel is
adequate at `css.length + 1` because the position strictly increases. -/
def extractGo (css : Str) : Nat → Nat → List Str
  | 0, _ => []
  | fuel + 1, pos =>
    match findFrom css ffTok pos with
    | none => []
    | some start =>
      match findFrom css [lbrace] start with
      | none => []
      | some braceStart =>
        match braceScan (css.drop (braceStart + 1)) 1 with
        | none => []
        | some k =>
          trimStr (sliceStr css start (braceStart + 1 + k)) ::
            extractGo css fuel (braceStart + 1 + k)

/-- `extractFontFaceBlocks` from `src/styles/cssUtils.ts`. -/
def extractFontFaceBlocks (css : Str) : List Str :=
  extractGo css (css.length + 1) 0

/-!
### URL resolution

`resolveUrl` delegates to the host `URL` constructor.  The constructor is
modelled for the shapes of URL this code base produces: `http(s)` URLs
with scheme, host and path (RFC 3986 relative resolution with dot-segment
removal; query/fragment strings are carried inside the last path
segment), other schemes serialised as themselves, and a thrown
`TypeError` modelled as `none` for a relative reference against a base
that is not an absolute `http(s)` URL. -/

/-- Scheme detection for the URL model: `[A-Za-z][A-Za-z0-9+.-]*:`. -/
def schemeTail : Str → Bool
  | [] => false
  | c :: rest =>
    if c = ':' then true
    else if c.isAlpha || c.isDigit || c = '+' || c = '-' || c = '.' then schemeTail rest
    else false

/-- Whether a URL string starts with a scheme. -/
def hasScheme (u : Str) : Bool :=
  match u with
  | [] => false
  | c :: rest => c.isAlpha && schemeTail rest

/-- Parse an absolute `http(s)` URL into scheme, host and path. -/
def parseHttpAbs (u : Str) : Option (Str × Str × Str) :=
  match findFrom u (str "://") 0 with
  | none => none
  | some i =>
    let scheme := lowerStr (u.take i)
    if scheme = str "http" ∨ scheme = str "https" then
      let rest := u.drop (i + 3)
      let host := lowerStr (rest.takeWhile (· ≠ '/'))
      let path := rest.dropWhile (· ≠ '/')
      if host = [] then none else some (scheme, host, path)
    else none

/-- Dot-segment removal over path segments (RFC 3986 §5.2.4); the
accumulator holds the output segments in reverse. -/
def rdsGo : List Str → List Str → List Str
  | out, [] => out.reverse
  | out, [seg] =>
    if seg = str ".." then (out.drop 1).reverse ++ [[]]
    else if seg = str "." then out.reverse ++ [[]]
    else out.reverse ++ [seg]
  | out, seg :: rest =>
    if seg = str ".." then rdsGo (out.drop 1) rest
    else if seg = str "." then rdsGo out rest
    else rdsGo (seg :: out) rest

/-- Normalise a path (leading-slash form) by removing dot segments. -/
def normPath (p : Str) : Str :=
  let p2 := if p = [] then ['/'] else p
  let segs := (p2.drop 1).splitOn '/'
  '/' :: (List.intercalate ['/'] (rdsGo [] segs))

/-- Serialise a parsed `http(s)` URL. -/
def renderHttp (scheme host path : Str) : Str :=
  scheme ++ str "://" ++ host ++ normPath path

/-- The directory part of a path: everything up to the final slash. -/
def dirOf (p : Str) : Str :=
  let d := (p.reverse.dropWhile (· ≠ '/')).reverse
  if d = [] then ['/'] else d

/-- Model of the host `new URL(url, base).toString()`; `none` models a
thrown `TypeError`. -/
def jsUrl (url base : Str) : Option Str :=
  if hasScheme url then
    match parseHttpAbs url with
    | some (s, h, p) => some (renderHttp s h p)
    | none => some url
  else
    match parseHttpAbs base with
    | none => none
    | some (s, h, p) =>
      if (str "//").isPrefixOf url then
        match parseHttpAbs (s ++ ':' :: url) with
        | some (s2, h2, p2) => some (renderHttp s2 h2 p2)
        | none => none
      else if url.head? = some '/' then some (renderHttp s h url)
      else if url = [] then some (renderHttp s h p)
      else if url.head? = some '#' then some (renderHttp s h p ++ url)
      else some (renderHttp s h (dirOf p ++ url))

/-- `resolveUrl` from `src/styles/cssUtils.ts`: resolve against the base,
returning the input unchanged when the constructor throws. -/
def resolveUrl (url base : Str) : Str :=
  match jsUrl url base with
  | some u => u
  | none => url

/-!
### `url(...)` rebasing (`rebaseUrls`)

The source replaces every match of
`url\(\s*(?:"([^"]*)"|'([^']*)'|([^)"']+))\s*\)` (global,
case-insensitive).  The matcher below reproduces the regex together with
its backtracking behaviour at each position.
-/

/-- Which alternation group of the `url(...)` regex matched. -/
inductive UrlQuote where
  | dq
  | sq
  | bare
deriving DecidableEq

/-- A single match of the `url(...)` regex: the group kind and the raw
captured content. -/
structure UrlMatch where
  q : UrlQuote
  content : Str
deriving DecidableEq

/-- The quote string re-emitted by the replacement callback. -/
def quoteStr : UrlQuote → Str
  | .dq => ['"']
  | .sq => [apos]
  | .bare => []

/-- Attempt to match the `url(...)` regex at the start of the string,
returning the match and the remaining characters.  The double/single
quote groups allow any characters except the matching quote; the bare
group is a nonempty run excluding parentheses and quotes; when the
parenthesis directly follows the whitespace run the regex backtracks one
whitespace character into the bare group. -/
def matchUrlAt (cs : Str) : Option (UrlMatch × Str) :=
  if ciPrefix (str "url(") cs then
    let r0 := cs.drop 4
    let ws := (r0.takeWhile jsWs).length
    match r0.drop ws with
    | [] => none
    | c :: r2 =>
      if c = '"' then
        let content := r2.takeWhile (· ≠ '"')
        match r2.drop content.length with
        | [] => none
        | _ :: r4 =>
          let ws2 := (r4.takeWhile jsWs).length
          match r4.drop ws2 with
          | ')' :: r5 => some (⟨.dq, content⟩, r5)
          | _ => none
      else if c = apos then
        let content := r2.takeWhile (· ≠ apos)
        match r2.drop content.length with
        | [] => none
        | _ :: r4 =>
          let ws2 := (r4.takeWhile jsWs).length
          match r4.drop ws2 with
          | ')' :: r5 => some (⟨.sq, content⟩, r5)
          | _ => none
      else if c = ')' then
        if ws = 0 then none
        else some (⟨.bare, sliceStr r0 (ws - 1) ws⟩, r2)
      else
        let content := (c :: r2).takeWhile (fun x => x ≠ ')' && x ≠ '"' && x ≠ apos)
        match (c :: r2).drop content.length with
        | ')' :: r5 => some (⟨.bare, content⟩, r5)
        | _ => none
  else none

/-- The protected-prefix test of the replacement callback:
`/^(data:|blob:|http:|https:|\/\/|#)/i`. -/
def isProtectedUrl (orig : Str) : Bool :=
  ciPrefix (str "data:") orig || ciPrefix (str "blob:") orig ||
  ciPrefix (str "http:") orig || ciPrefix (str "https:") orig ||
  ciPrefix (str "//") orig || ciPrefix (str "#") orig

/-- The replacement callback of `rebaseUrls`: trim the captured target,
keep protected targets untouched, otherwise resolve against the base
(keeping the original when the URL constructor throws). -/
def rebaseReplace (m : UrlMatch) (baseUrl : Str) : Str :=
  let orig := trimStr m.content
  let q := quoteStr m.q
  if isProtectedUrl orig then
    str "url(" ++ q ++ orig ++ q ++ [')']
  else
    let abs := match jsUrl orig baseUrl with
      | some a => a
      | none => orig
    str "url(" ++ q ++ abs ++ q ++ [')']

/-- Global-replace scan of `rebaseUrls`: at each position, emit the
replacement for a match and continue after it, or copy one character.
Fuel is the block length; every match consumes at least five
characters. -/
def rebaseGo (baseUrl : Str) : Nat → Str → Str
  | 0, s => s
  | fuel + 1, s =>
    match matchUrlAt s with
    | some (m, rest) => rebaseReplace m baseUrl ++ rebaseGo baseUrl fuel rest
    | none =>
      match s with
      | [] => []
      | c :: t => c :: rebaseGo baseUrl fuel t

/-- `rebaseUrls` from `src/styles/cssUtils.ts`. -/
def rebaseUrls (cssBlock baseUrl : Str) : Str :=
  rebaseGo baseUrl cssBlock.length cssBlock

/-!
### The `@import` regex (`createImportRegex`)

`/@import\s+(?:url\(\s*(["']?)([^)"']+)\1\s*\)|(["'])([^"']+)\3)[^;]*;/gi`

The matcher reproduces the regex at a position, including the
backtracking of the optional quote group and of the whitespace runs; the
driver reproduces the `exec` loop over `lastIndex`.
-/

/-- `[^;]*;` tail of the import regex: consume through the first
semicolon, fail when there is none. -/
def importTail (u rest : Str) : Option (Str × Str) :=
  match findFrom rest [';'] 0 with
  | some j => some (u, rest.drop (j + 1))
  | none => none

/-- The `url(\s*(["']?)([^)"']+)\1\s*\)` alternative. -/
def importUrlForm (r1 : Str) : Option (Str × Str) :=
  if ciPrefix (str "url(") r1 then
    let r2 := r1.drop 4
    let ws2 := (r2.takeWhile jsWs).length
    match r2.drop ws2 with
    | [] => none
    | c :: r4 =>
      if c = '"' || c = apos then
        let content := r4.takeWhile (fun x => x ≠ ')' && x ≠ '"' && x ≠ apos)
        if content = [] then none
        else
          match r4.drop content.length with
          | [] => none
          | d :: r5 =>
            if d = c then
              let ws3 := (r5.takeWhile jsWs).length
              match r5.drop ws3 with
              | ')' :: r6 => some (content, r6)
              | _ => none
            else none
      else if c = ')' then
        if ws2 = 0 then none
        else some (sliceStr r2 (ws2 - 1) ws2, r4)
      else
        let content := (c :: r4).takeWhile (fun x => x ≠ ')' && x ≠ '"' && x ≠ apos)
        match (c :: r4).drop content.length with
        | ')' :: r5 => some (content, r5)
        | _ => none
  else none

/-- The `(["'])([^"']+)\3` alternative. -/
def importStrForm (r1 : Str) : Option (Str × Str) :=
  match r1 with
  | [] => none
  | c :: r2 =>
    if c = '"' || c = apos then
      let content := r2.takeWhile (fun x => x ≠ '"' && x ≠ apos)
      if content = [] then none
      else
        match r2.drop content.length with
        | [] => none
        | d :: r3 => if d = c then some (content, r3) else none
    else none

/-- Attempt to match the import regex at the start of the string,
returning the captured URL group and the remaining characters. -/
def matchImportAt (cs : Str) : Option (Str × Str) :=
  if ciPrefix (str "@import") cs then
    let r0 := cs.drop 7
    let ws := (r0.takeWhile jsWs).length
    if ws = 0 then none
    else
      let r1 := r0.drop ws
      match importUrlForm r1 with
      | some (u, r2) => importTail u r2
      | none =>
        match importStrForm r1 with
        | some (u, r2) => importTail u r2
        | none => none
  else none

/-- One `importRegex.exec(css)` call from `lastIndex = li`: find the
leftmost match at or after `li`, returning the updated `lastIndex` and
the captured URL group. -/
def execImportFrom (css : Str) (li : Nat) : Option (Nat × Str) :=
  match (List.range (css.length + 1)).find?
      (fun p => decide (li ≤ p) && (matchImportAt (css.drop p)).isSome) with
  | none => none
  | some p =>
    match matchImportAt (css.drop p) with
    | some (u, rest) => some (css.length - rest.length, u)
    | none => none

/-!
### Font-face collector (`src/styles/fontFaceCollector.ts`)

`fetch` is modelled by a finite association list of successful text
responses; a URL not in the list models a network error or a non-ok
status (both are skipped identically by the source).  The `await` points
do not reorder anything (single-threaded host loop), so the collector is
a sequential interpreter.  The single shared `importRegex` object means
`lastIndex` is reset to `0` by the inner `exec` loop of every recursive
`processCss` call, so after a recursive call returns the outer loop
rescans its own source from the start; this is modelled faithfully.
The interpreter is indexed by fuel; `collect_terminates` in this file
shows the canonical fuel below is always sufficient. -/

/-- A `<link>` element as seen by the collector: its `rel`, `as`,
`href`, `disabled` and `media` attributes. -/
structure LinkTag where
  rel : Str
  asAttr : Option Str
  href : Option Str
  disabled : Bool
  media : Option Str
deriving DecidableEq

/-- A DOM node (element, text or comment). -/
inductive Node where
  | text (s : Str)
  | comment (s : Str)
  | elem (tag : Str) (attrs : List (Str × Str)) (children : List Node)

/-- A parsed HTML document as the collector and renderer consume it:
the `<style>` text contents in document order, the `<link>` elements in
document order, the first `<base href>` value, and the root element. -/
structure HtmlDoc where
  styles : List Str
  links : List LinkTag
  baseHref : Option Str
  documentElement : Node

/-- The host environment: the network (successful fetches), the host
document's base URI, `location.href`, and the `matchMedia`
collaborator (`none` result models a thrown error). -/
structure HostEnv where
  net : List (Str × Str)
  hostBaseURI : Str
  locationHref : Str
  hasMatchMedia : Bool
  mediaMatches : Str → Option Bool

/-- Model of `fetch` followed by `res.ok` and `res.text()`. -/
def fetchText : List (Str × Str) → Str → Option Str
  | [], _ => none
  | (k, v) :: rest, u => if k = u then some v else fetchText rest u

/-- Collector state: the font rule set (a JS `Set`, i.e. an
insertion-ordered duplicate-free list), the visited URL set, and the
trace of URLs passed to `fetch`. -/
structure RState where
  fonts : List Str
  visited : List Str
  fetched : List Str
deriving DecidableEq

/-- `Set.add` on the insertion-ordered font rule list. -/
def addFont (fonts : List Str) (r : Str) : List Str :=
  if r ∈ fonts then fonts else fonts ++ [r]

/-- `getDocBaseUrl` from `src/styles/cssUtils.ts`. -/
def getDocBaseUrl (env : HostEnv) (baseHref : Option Str) : Str :=
  let fallback := if env.hostBaseURI ≠ [] then env.hostBaseURI else env.locationHref
  match baseHref with
  | none => fallback
  | some raw =>
    let bh := trimStr raw
    if bh ≠ [] then
      match jsUrl bh env.hostBaseURI with
      | some u => u
      | none => fallback
    else fallback

/-- The interpreter's call stack frames: `proc` is an entry into
`processCss`, `loop` is the `@import` `while` loop at a given
`lastIndex`. -/
inductive FCall where
  | proc (cssRaw baseUrl : Str) (st : RState)
  | loop (css baseUrl : Str) (li : Nat) (st : RState)

/-- The body of `processCss` (`src/styles/fontFaceCollector.ts`,
both the font-face extraction and the recursive `@import` loop),
interpreted with fuel consumed at every call. -/
def runF (net : List (Str × Str)) : Nat → FCall → Option RState
  | 0, _ => none
  | fuel + 1, .proc cssRaw baseUrl st =>
    let css := stripComments cssRaw
    let fonts2 := (extractFontFaceBlocks css).foldl
      (fun fs b => addFont fs (rebaseUrls b baseUrl)) st.fonts
    runF net fuel (.loop css baseUrl 0 { st with fonts := fonts2 })
  | fuel + 1, .loop css baseUrl li st =>
    match execImportFrom css li with
    | none => some st
    | some (mEnd, raw) =>
      let url := trimStr raw
      if url = [] then runF net fuel (.loop css baseUrl mEnd st)
      else
        let absUrl := resolveUrl url baseUrl
        if absUrl ∈ st.visited then runF net fuel (.loop css baseUrl mEnd st)
        else
          let st1 := { st with visited := st.visited ++ [absUrl],
                               fetched := st.fetched ++ [absUrl] }
          match fetchText net absUrl with
          | none => runF net fuel (.loop css baseUrl mEnd st1)
          | some text =>
            match runF net fuel (.proc text absUrl st1) with
            | none => none
            | some st2 => runF net fuel (.loop css baseUrl 0 st2)

/-- The loop over inline `<style>` elements. -/
def stylesLoop (net : List (Str × Str)) (fuel : Nat) (docBase : Str) :
    List Str → RState → Option RState
  | [], st => some st
  | cssText :: rest, st =>
    match runF net fuel (.proc cssText docBase st) with
    | none => none
    | some st2 => stylesLoop net fuel docBase rest st2

/-- Split an attribute value on whitespace (for `rel~=` matching). -/
def wsTokens (s : Str) : List Str :=
  ((s.map (fun c => if jsWs c then ' ' else c)).splitOn ' ').filter (· ≠ [])

/-- The selector
`link[rel~="stylesheet"][href], link[rel="preload"][as="style"][href]`. -/
def linkMatchesSelector (l : LinkTag) : Bool :=
  ((wsTokens l.rel).contains (str "stylesheet") ||
    (decide (l.rel = str "preload") && decide (l.asAttr = some (str "style")))) &&
  l.href.isSome

/-- The first `continue` guard of the link loop: `rel` contains
`alternate` (after lowercasing) or the link is disabled. -/
def linkRelSkip (l : LinkTag) : Bool :=
  strContains (lowerStr l.rel) (str "alternate") || l.disabled

/-- The second `continue` guard: a nonempty trimmed `media` attribute
whose `matchMedia` evaluation is available and does not match (a thrown
`matchMedia` is ignored). -/
def linkMediaSkip (env : HostEnv) (l : LinkTag) : Bool :=
  match l.media.map trimStr with
  | none => false
  | some m =>
    if m ≠ [] then
      if env.hasMatchMedia then
        match env.mediaMatches m with
        | some b => !b
        | none => false
      else false
    else false

/-- The resolved absolute `href` of a link. -/
def linkAbsHref (docBase : Str) (l : LinkTag) : Str :=
  resolveUrl (trimStr (l.href.getD [])) docBase

/-- The loop over selected `<link>` elements. -/
def linksLoop (env : HostEnv) (fuel : Nat) (docBase : Str) :
    List LinkTag → RState → Option RState
  | [], st => some st
  | l :: rest, st =>
    if linkRelSkip l then
      linksLoop env fuel docBase rest st
    else
      if linkMediaSkip env l then linksLoop env fuel docBase rest st
      else
        if trimStr (l.href.getD []) = [] then linksLoop env fuel docBase rest st
        else
          if linkAbsHref docBase l ∈ st.visited then linksLoop env fuel docBase rest st
          else
            match fetchText env.net (linkAbsHref docBase l) with
            | none =>
              linksLoop env fuel docBase rest
                { st with visited := st.visited ++ [linkAbsHref docBase l],
                          fetched := st.fetched ++ [linkAbsHref docBase l] }
            | some text =>
              match runF env.net fuel (.proc text (linkAbsHref docBase l)
                  { st with visited := st.visited ++ [linkAbsHref docBase l],
                            fetched := st.fetched ++ [linkAbsHref docBase l] }) with
              | none => none
              | some st2 => linksLoop env fuel docBase rest st2

/-- `collectFontFaceRulesFromDocument` from
`src/styles/fontFaceCollector.ts`, indexed by fuel. -/
def collectFontFaceRules (env : HostEnv) (fuel : Nat) (d : HtmlDoc) :
    Option RState :=
  let docBase := getDocBaseUrl env d.baseHref
  match stylesLoop env.net fuel docBase d.styles ⟨[], [], []⟩ with
  | none => none
  | some st1 => linksLoop env fuel docBase (d.links.filter linkMatchesSelector) st1

/-!
### Shadow renderer (`src/renderers/shadowRenderer.ts`)

The shadow root is modelled as its identity plus its child list; the
host `document.importNode(node, true)` is a deep structural copy; the
HTML parser (`DOMParser`, `'text/html'`) and the `normalizeHtml` helper
of `extras/utils.ts` are environment parameters of the model (the parser
is a host collaborator; `normalizeHtml` is repository code absent from
the sources).  Scripts parsed from markup and inserted programmatically
never auto-execute in the host (which is why the separate replay engine
exists), so the renderer's observable effects are its fetches; the event
trace records them and would record any script instantiation. -/

mutual

/-- Deep structural copy, modelling `document.importNode(n, true)`. -/
def cloneNode : Node → Node
  | .text s => .text s
  | .comment s => .comment s
  | .elem tag attrs cs => .elem tag attrs (cloneNodes cs)

/-- Deep copy of a child list (the recursion nests through it). -/
def cloneNodes : List Node → List Node
  | [] => []
  | n :: ns => cloneNode n :: cloneNodes ns

end

/-- A shadow root: its identity and its current children. -/
structure Shadow where
  sid : Nat
  children : List Node

/-- Observable events of a render: network fetches, script replay
start/completion, and the structural-settle point before the defer
bucket.  `renderIntoShadowRoot` emits only fetches. -/
inductive REv where
  | fetchEv (url : Str)
  | scriptStartEv (sid : Str)
  | scriptEndEv (sid : Str)
  | settleEv
deriving DecidableEq

/-- The `while (shadowRoot.firstChild) removeChild(firstChild)` loop of
`renderIntoShadowRoot` and `clearShadowRoot`. -/
def clearLoop : List Node → List Node
  | [] => []
  | _ :: rest => clearLoop rest

/-- `clearShadowRoot` from `src/renderers/shadowRenderer.ts`. -/
def clearShadowRoot (sr : Shadow) : Shadow :=
  { sr with children := clearLoop sr.children }

/-- The renderer environment: the host environment plus the HTML parser
and the `normalizeHtml` helper. -/
structure RenderEnv where
  host : HostEnv
  parseHtml : Str → HtmlDoc
  normalizeHtml : Str → Str

/-- `extractAndInjectFontFaces` from `src/renderers/shadowRenderer.ts`:
collect the rules and, when the set is nonempty, inject them into the
sink. -/
def extractAndInjectFontFaces (env : HostEnv) (fuel : Nat) (d : HtmlDoc)
    (sink : Str) : Option Str :=
  match collectFontFaceRules env fuel d with
  | none => none
  | some st => some (if st.fonts ≠ [] then injectFontFaces st.fonts sink else sink)

/-- `renderIntoShadowRoot` from `src/renderers/shadowRenderer.ts`:
clear the shadow root, parse the normalised HTML, extract and inject
font faces, then import the document element and append it.  The result
is the new shadow root, the new sink text, and the event trace. -/
def renderIntoShadowRoot (env : RenderEnv) (fuel : Nat) (sr : Shadow)
    (html : Str) (sink : Str) : Option (Shadow × Str × List REv) :=
  let cleared := clearLoop sr.children
  let doc := env.parseHtml (env.normalizeHtml html)
  match collectFontFaceRules env.host fuel doc with
  | none => none
  | some st =>
    let sink2 := if st.fonts ≠ [] then injectFontFaces st.fonts sink else sink
    let imported := cloneNode doc.documentElement
    some (⟨sr.sid, cleared ++ [imported]⟩, sink2, st.fetched.map REv.fetchEv)

/-!
### Script replay engine

Modelled from the spec: the Script Extraction & Replay Engine lives in
`src/renderers/directRenderer.ts`, which is absent from the sources
(only its exports in `main.ts`, the `IScriptMeta` declaration in
`extras/types.ts` and its tests are present).  The descriptor shape is
taken from `IScriptMeta`; classification and the replay protocol follow
§4.1 of the design document: module scripts are defer-class regardless
of their async/defer attributes, the three buckets preserve source
order, the sequential bucket is replayed one at a time with each replay
awaited, the async bucket is initiated fire-and-forget, and the defer
bucket runs after the structural settle point, in order, each awaited.
-/

/-- A script descriptor (`IScriptMeta` in `src/extras/types.ts`). -/
structure ScriptMeta where
  id : Str
  attrs : List (Str × Str)
  code : Option Str
  hasSrc : Bool
  isAsync : Bool
  isDefer : Bool
  isModule : Bool
deriving DecidableEq

/-- Execution class of a script. -/
inductive ScriptClass where
  | seqC
  | asyncC
  | deferC
deriving DecidableEq

/-- Modelled from the spec: classification priority — module, then
async, then defer, else sequential. -/
def classifyScript (m : ScriptMeta) : ScriptClass :=
  if m.isModule then .deferC
  else if m.isAsync then .asyncC
  else if m.isDefer then .deferC
  else .seqC

/-- Trace of one awaited replay: insertion at the placeholder starts
execution, and the await observes its completion. -/
def replayOneTrace (m : ScriptMeta) : List REv :=
  [.scriptStartEv m.id, .scriptEndEv m.id]

/-- Modelled from the spec: the replay protocol's event trace.  The
sequential bucket is replayed one at a time, awaited; the async bucket
is then initiated without awaiting (its completions are detached and do
not appear); the defer bucket replays after the settle point, in order,
each awaited. -/
def replayScripts (scripts : List ScriptMeta) : List REv :=
  let seqB := scripts.filter (fun m => decide (classifyScript m = .seqC))
  let asyncB := scripts.filter (fun m => decide (classifyScript m = .asyncC))
  let deferB := scripts.filter (fun m => decide (classifyScript m = .deferC))
  seqB.flatMap replayOneTrace ++
    asyncB.map (fun m => .scriptStartEv m.id) ++
    .settleEv :: deferB.flatMap replayOneTrace

/-!
## Facts about `findFrom` and the extractor loop
-/

theorem findFrom_some_facts {hay needle : Str} {s i : Nat}
    (h : findFrom hay needle s = some i) : s ≤ i ∧ i ≤ hay.length := by
  unfold findFrom at h
  have hpred := List.find?_some h
  have hmem := List.mem_of_find?_eq_some h
  constructor
  · have := (Bool.and_eq_true _ _).mp hpred |>.1
    exact of_decide_eq_true this
  · have := List.mem_range.mp hmem
    omega

theorem findFrom_none_of_gt (needle : Str) {hay : Str} {s : Nat}
    (h : hay.length < s) : findFrom hay needle s = none := by
  unfold findFrom
  refine List.find?_eq_none.mpr ?_
  intro i hi
  have := List.mem_range.mp hi
  simp only [Bool.and_eq_true, decide_eq_true_eq]
  rintro ⟨h1, -⟩
  omega

/-- The extractor loop's value does not depend on the fuel once the fuel
covers the remaining positions. -/
theorem extractGo_fuel_congr (css : Str) :
    ∀ f g pos, css.length + 1 - pos ≤ f → css.length + 1 - pos ≤ g →
      extractGo css f pos = extractGo css g pos := by
  intro f
  induction f with
  | zero =>
    intro g pos hf _
    have hpos : css.length < pos := by omega
    have hnone := findFrom_none_of_gt ffTok hpos
    cases g with
    | zero => rfl
    | succ g => simp [extractGo, hnone]
  | succ f ih =>
    intro g pos hf hg
    cases g with
    | zero =>
      have hpos : css.length < pos := by omega
      have hnone := findFrom_none_of_gt ffTok hpos
      simp [extractGo, hnone]
    | succ g =>
      simp only [extractGo]
      cases hff : findFrom css ffTok pos with
      | none => rfl
      | some start =>
        dsimp only
        cases hbr : findFrom css [lbrace] start with
        | none => rfl
        | some braceStart =>
          dsimp only
          cases hsc : braceScan (css.drop (braceStart + 1)) 1 with
          | none => rfl
          | some k =>
            dsimp only
            have h1 := findFrom_some_facts hff
            have h2 := findFrom_some_facts hbr
            have hi : pos + 1 ≤ braceStart + 1 + k := by omega
            have := ih g (braceStart + 1 + k) (by omega) (by omega)
            rw [this]

/-- The extractor viewed from a scan position, with canonical fuel. -/
def extractFromPos (css : Str) (pos : Nat) : List Str :=
  extractGo css (css.length + 1 - pos) pos

/-!
## Counting and bound lemmas for the collector
-/

/-- The state carried by a collector call frame. -/
def FCall.state : FCall → RState
  | .proc _ _ st => st
  | .loop _ _ _ st => st

/-- Distinct URLs the network can answer. -/
def netKeys (net : List (Str × Str)) : List Str := (net.map Prod.fst).dedup

/-- Number of network keys not yet visited: the termination measure's
major component. -/
def unvisitedCount (net : List (Str × Str)) (visited : List Str) : Nat :=
  ((netKeys net).filter (fun k => decide (k ∉ visited))).length

theorem filter_length_mono {α : Type} (p q : α → Bool)
    (h : ∀ x, p x = true → q x = true) :
    ∀ l : List α, (l.filter p).length ≤ (l.filter q).length := by
  intro l
  induction l with
  | nil => simp
  | cons x xs ih =>
    by_cases hp : p x = true
    · have hq := h x hp
      simp [List.filter_cons, hp, hq]
      omega
    · have hp' : p x = false := by simpa [Bool.not_eq_true] using hp
      by_cases hq : q x = true
      · simp [List.filter_cons, hp', hq]
        omega
      · have hq' : q x = false := by simpa [Bool.not_eq_true] using hq
        simpa [List.filter_cons, hp', hq'] using ih

theorem filter_length_lt {α : Type} (p q : α → Bool) (a : α)
    (h : ∀ x, q x = true → p x = true) (hpa : p a = true) (hqa : q a = false) :
    ∀ l : List α, a ∈ l → (l.filter q).length < (l.filter p).length := by
  intro l
  induction l with
  | nil => intro h0; cases h0
  | cons x xs ih =>
    intro hmem
    rcases List.mem_cons.mp hmem with hx | hx
    · subst hx
      simp only [List.filter_cons, hpa, hqa]
      simp
      calc (xs.filter q).length ≤ (xs.filter p).length :=
            filter_length_mono q p h xs
        _ < (xs.filter p).length + 1 := Nat.lt_succ_self _
    · by_cases hq : q x = true
      · have hp := h x hq
        simp only [List.filter_cons, hp, hq]
        simpa using ih hx
      · have hq' : q x = false := by simpa [Bool.not_eq_true] using hq
        by_cases hp : p x = true
        · simp only [List.filter_cons, hp, hq']
          simp
          calc (xs.filter q).length < (xs.filter p).length := ih hx
            _ ≤ (xs.filter p).length + 1 := Nat.le_succ _
        · have hp' : p x = false := by simpa [Bool.not_eq_true] using hp
          simpa [List.filter_cons, hp', hq'] using ih hx

/-- Growing the visited set cannot increase the measure. -/
theorem unvisitedCount_mono (net : List (Str × Str)) (v v2 : List Str)
    (h : ∀ x ∈ v, x ∈ v2) :
    unvisitedCount net v2 ≤ unvisitedCount net v := by
  refine filter_length_mono _ _ ?_ _
  intro x hx
  simp only [decide_eq_true_eq] at hx ⊢
  intro hmem
  exact hx (h x hmem)

/-- Visiting a fetchable URL strictly decreases the measure. -/
theorem unvisitedCount_lt (net : List (Str × Str)) (v : List Str) (a : Str)
    (ha : a ∈ netKeys net) (hnv : a ∉ v) :
    unvisitedCount net (v ++ [a]) < unvisitedCount net v := by
  refine filter_length_lt _ _ a ?_ ?_ ?_ _ ha
  · intro x hx
    simp only [decide_eq_true_eq, List.mem_append] at hx ⊢
    intro hmem
    exact hx (Or.inl hmem)
  · simpa using hnv
  · simp

/-- Visiting a URL the network cannot answer leaves the measure
unchanged. -/
theorem unvisitedCount_eq_of_not_key (net : List (Str × Str)) (v : List Str)
    (a : Str) (ha : a ∉ netKeys net) :
    unvisitedCount net (v ++ [a]) = unvisitedCount net v := by
  unfold unvisitedCount
  congr 1
  refine List.filter_congr ?_
  intro x hx
  have hxa : x ≠ a := fun h => ha (h ▸ hx)
  simp [List.mem_append, hxa]

theorem fetchText_some_mem {net : List (Str × Str)} {u t : Str}
    (h : fetchText net u = some t) : (u, t) ∈ net := by
  induction net with
  | nil => cases h
  | cons p rest ih =>
    obtain ⟨k, v⟩ := p
    by_cases hk : k = u
    · subst hk
      simp [fetchText] at h
      simp [h]
    · simp [fetchText, hk] at h
      exact List.mem_cons_of_mem _ (ih h)

theorem fetchText_some_key {net : List (Str × Str)} {u t : Str}
    (h : fetchText net u = some t) : u ∈ netKeys net := by
  have := fetchText_some_mem h
  refine List.mem_dedup.mpr ?_
  exact List.mem_map.mpr ⟨(u, t), this, rfl⟩

theorem fetchText_none_forall {net : List (Str × Str)} {u : Str}
    (h : fetchText net u = none) : ∀ p ∈ net, p.1 ≠ u := by
  induction net with
  | nil => intro p hp; cases hp
  | cons q rest ih =>
    obtain ⟨k, v⟩ := q
    by_cases hk : k = u
    · subst hk; simp [fetchText] at h
    · intro p hp
      rcases List.mem_cons.mp hp with h1 | h1
      · subst h1; simpa using hk
      · have h2 : fetchText rest u = none := by simpa [fetchText, hk] using h
        exact ih h2 p h1

theorem fetchText_none_not_key {net : List (Str × Str)} {u : Str}
    (h : fetchText net u = none) : u ∉ netKeys net := by
  intro hmem
  rcases List.mem_map.mp (List.mem_dedup.mp hmem) with ⟨p, hpmem, hk⟩
  exact fetchText_none_forall h p hpmem hk

/-- Elements are bounded by the fold of `max`. -/
theorem le_foldr_max (l : List Nat) : ∀ x ∈ l, x ≤ l.foldr max 0 := by
  induction l with
  | nil => intro x hx; cases hx
  | cons y ys ih =>
    intro x hx
    rcases List.mem_cons.mp hx with h | h
    · subst h; simp [List.foldr_cons]
    · have := ih x h
      simp [List.foldr_cons]
      omega

/-!
## Length bounds for the import matcher
-/

theorem ciPrefix_length {needle hay : Str} (h : ciPrefix needle hay = true) :
    needle.length ≤ hay.length := by
  unfold ciPrefix at h
  have := (List.isPrefixOf_iff_prefix.mp h).length_le
  simpa [lowerStr] using this

theorem importTail_len {u r u2 rest : Str}
    (h : importTail u r = some (u2, rest)) : rest.length ≤ r.length := by
  unfold importTail at h
  cases hf : findFrom r [';'] 0 with
  | none => rw [hf] at h; cases h
  | some j =>
    rw [hf] at h
    simp at h
    rw [← h.2]
    simp

theorem importUrlForm_len {r1 u r2 : Str}
    (h : importUrlForm r1 = some (u, r2)) : r2.length < r1.length := by
  unfold importUrlForm at h
  by_cases hp : ciPrefix (str "url(") r1 = true
  · have hlen : 4 ≤ r1.length := by
      have := ciPrefix_length hp
      simpa [str] using this
    rw [if_pos hp] at h
    dsimp only at h
    split at h
    · exact Option.noConfusion h
    · rename_i c r4 hm
      have hr4 : r4.length + 1 ≤ r1.length - 4 := by
        have := congrArg List.length hm
        simp at this
        omega
      split at h
      · split at h
        · exact Option.noConfusion h
        · split at h
          · exact Option.noConfusion h
          · rename_i d r5 hd
            have hr5 : r5.length + 1 ≤ r4.length := by
              have := congrArg List.length hd
              simp at this
              omega
            split at h
            · split at h
              · rename_i r6 he
                have hr6 : r6.length + 1 ≤ r5.length := by
                  have := congrArg List.length he
                  simp at this
                  omega
                simp at h
                obtain ⟨h1, h2⟩ := h
                subst h2
                omega
              · exact Option.noConfusion h
            · exact Option.noConfusion h
      · split at h
        · split at h
          · exact Option.noConfusion h
          · simp at h
            obtain ⟨h1, h2⟩ := h
            subst h2
            omega
        · split at h
          · rename_i r5 hd
            have hr5 : r5.length + 1 ≤ r4.length + 1 := by
              have := congrArg List.length hd
              simp at this
              omega
            simp at h
            obtain ⟨h1, h2⟩ := h
            subst h2
            omega
          · exact Option.noConfusion h
  · rw [if_neg hp] at h; cases h

theorem importStrForm_len {r1 u r2 : Str}
    (h : importStrForm r1 = some (u, r2)) : r2.length < r1.length := by
  unfold importStrForm at h
  split at h
  · exact Option.noConfusion h
  · rename_i c r2x
    split at h
    · dsimp only at h
      split at h
      · exact Option.noConfusion h
      · split at h
        · exact Option.noConfusion h
        · rename_i d r3 hd
          split at h
          · simp at h
            obtain ⟨h1, h2⟩ := h
            subst h2
            have := congrArg List.length hd
            simp at this
            have hc2 : (c :: r2x).length = r2x.length + 1 := by simp
            omega
          · exact Option.noConfusion h
    · exact Option.noConfusion h

theorem matchImportAt_len {cs u rest : Str}
    (h : matchImportAt cs = some (u, rest)) : rest.length < cs.length := by
  unfold matchImportAt at h
  by_cases hp : ciPrefix (str "@import") cs = true
  · have hlen : 7 ≤ cs.length := by
      have := ciPrefix_length hp
      simpa [str] using this
    rw [if_pos hp] at h
    dsimp only at h
    split at h
    · exact Option.noConfusion h
    · split at h
      · rename_i u1 r2 hu
        have h1 := importUrlForm_len hu
        have h2 := importTail_len h
        simp at h1
        omega
      · split at h
        · rename_i u1 r2 hu
          have h1 := importStrForm_len hu
          have h2 := importTail_len h
          simp at h1
          omega
        · exact Option.noConfusion h
  · rw [if_neg hp] at h; cases h

theorem execImportFrom_facts {css : Str} {li mEnd : Nat} {raw : Str}
    (h : execImportFrom css li = some (mEnd, raw)) :
    li < mEnd ∧ mEnd ≤ css.length := by
  unfold execImportFrom at h
  cases hf : (List.range (css.length + 1)).find?
      (fun p => decide (li ≤ p) && (matchImportAt (css.drop p)).isSome) with
  | none => rw [hf] at h; cases h
  | some p =>
    rw [hf] at h
    dsimp only at h
    have hpred := List.find?_some hf
    have hmem := List.mem_of_find?_eq_some hf
    have hp1 : li ≤ p := by
      have := (Bool.and_eq_true _ _).mp hpred |>.1
      exact of_decide_eq_true this
    have hp2 : p ≤ css.length := by
      have := List.mem_range.mp hmem
      omega
    cases hm : matchImportAt (css.drop p) with
    | none =>
      have := (Bool.and_eq_true _ _).mp hpred |>.2
      rw [hm] at this
      cases this
    | some pr =>
      obtain ⟨u2, rest⟩ := pr
      rw [hm] at h
      have hlt := matchImportAt_len hm
      simp at hlt
      simp at h
      obtain ⟨h1, h2⟩ := h
      have hrest : rest.length < css.length - p := by omega
      omega

/-!
## Collector invariants: visited-set growth and fetch-once
-/

/-- The invariant behind "each URL is fetched at most once": the fetch
trace is duplicate-free and every fetched URL is already visited. -/
def FetchInv (st : RState) : Prop :=
  st.fetched.Nodup ∧ ∀ u ∈ st.fetched, u ∈ st.visited

theorem fetchInv_extend {st : RState} (h : FetchInv st) {a : Str}
    (ha : a ∉ st.visited) :
    FetchInv { st with visited := st.visited ++ [a], fetched := st.fetched ++ [a] } := by
  obtain ⟨hnd, hsub⟩ := h
  have hafetched : a ∉ st.fetched := fun hmem => ha (hsub a hmem)
  constructor
  · simp [List.nodup_append, hnd, hafetched]
  · intro u hu
    rcases List.mem_append.mp hu with h1 | h1
    · exact List.mem_append.mpr (Or.inl (hsub u h1))
    · exact List.mem_append.mpr (Or.inr h1)

/-- Along any successful interpreter run, the visited list only grows
(as a prefix) and the fetch-once invariant is preserved. -/
theorem runF_mono_inv (net : List (Str × Str)) :
    ∀ fuel c st', runF net fuel c = some st' →
      c.state.visited <+: st'.visited ∧ (FetchInv c.state → FetchInv st') := by
  intro fuel
  induction fuel with
  | zero => intro c st' h; cases h
  | succ fuel ih =>
    intro c st' h
    cases c with
    | proc cssRaw baseUrl st =>
      simp only [runF] at h
      have := ih _ _ h
      simpa [FCall.state] using this
    | loop css baseUrl li st =>
      simp only [runF] at h
      cases hex : execImportFrom css li with
      | none =>
        rw [hex] at h
        simp at h
        subst h
        exact ⟨List.prefix_refl _, id⟩
      | some pr =>
        obtain ⟨mEnd, raw⟩ := pr
        rw [hex] at h
        dsimp only at h
        by_cases hu : trimStr raw = ([] : Str)
        · rw [if_pos hu] at h
          simpa [FCall.state] using ih _ _ h
        · rw [if_neg hu] at h
          by_cases hv : resolveUrl (trimStr raw) baseUrl ∈ st.visited
          · rw [if_pos hv] at h
            simpa [FCall.state] using ih _ _ h
          · rw [if_neg hv] at h
            have hpre1 : st.visited <+:
                st.visited ++ [resolveUrl (trimStr raw) baseUrl] :=
              List.prefix_append _ _
            cases hf : fetchText net (resolveUrl (trimStr raw) baseUrl) with
            | none =>
              rw [hf] at h
              have h2 := ih _ _ h
              simp [FCall.state] at h2
              refine ⟨hpre1.trans h2.1, fun hinv => h2.2 ?_⟩
              exact fetchInv_extend hinv hv
            | some text =>
              rw [hf] at h
              dsimp only at h
              cases hr : runF net fuel
                  (.proc text (resolveUrl (trimStr raw) baseUrl)
                    { st with visited := st.visited ++ [resolveUrl (trimStr raw) baseUrl],
                              fetched := st.fetched ++ [resolveUrl (trimStr raw) baseUrl] }) with
              | none => rw [hr] at h; cases h
              | some st2 =>
                rw [hr] at h
                dsimp only at h
                have h1 := ih _ _ hr
                have h2 := ih _ _ h
                simp [FCall.state] at h1 h2
                refine ⟨hpre1.trans (h1.1.trans h2.1), fun hinv => ?_⟩
                exact h2.2 (h1.2 (fetchInv_extend hinv hv))

/-!
## Collector termination: the canonical fuel is always sufficient
-/

theorem stripGo_length_le : ∀ fuel s, (stripGo fuel s).length ≤ s.length := by
  intro fuel
  induction fuel with
  | zero => intro s; simp [stripGo]
  | succ fuel ih =>
    intro s
    simp only [stripGo]
    cases h1 : findFrom s (str "/*") 0 with
    | none => simp
    | some i =>
      dsimp only
      cases h2 : findFrom s (str "*/") (i + 2) with
      | none => simp
      | some j =>
        dsimp only
        have hf2 := findFrom_some_facts h2
        have hrec := ih (s.drop (j + 2))
        simp only [sliceStr, List.length_append, List.drop_zero,
          List.length_take, List.length_drop] at hrec ⊢
        omega

theorem stripComments_length_le (css : Str) :
    (stripComments css).length ≤ css.length :=
  stripGo_length_le _ _

/-- With enough fuel — a multiple of the measure — the interpreter never
runs out: this is the termination argument of the collector.  `K` bounds
every fetched body's length plus 3; recursion consumes one unvisited
network key each time it descends. -/
theorem runF_adequate (net : List (Str × Str)) (K : Nat)
    (hK : ∀ u t, fetchText net u = some t → t.length + 3 ≤ K) :
    ∀ fuel : Nat,
      (∀ cssRaw baseUrl st, cssRaw.length + 3 ≤ K →
        unvisitedCount net st.visited * K + cssRaw.length + 3 ≤ fuel →
        (runF net fuel (.proc cssRaw baseUrl st)).isSome = true) ∧
      (∀ css baseUrl li st, li ≤ css.length → css.length + 3 ≤ K →
        unvisitedCount net st.visited * K + (css.length + 1 - li) + 1 ≤ fuel →
        (runF net fuel (.loop css baseUrl li st)).isSome = true) := by
  intro fuel
  induction fuel with
  | zero =>
    constructor
    · intro cssRaw baseUrl st hlen hfuel
      omega
    · intro css baseUrl li st hli hlen hfuel
      omega
  | succ fuel ih =>
    constructor
    · intro cssRaw baseUrl st hlen hfuel
      simp only [runF]
      have hstrip := stripComments_length_le cssRaw
      refine ih.2 _ _ _ _ ?_ ?_ ?_
      · omega
      · omega
      · dsimp only
        omega
    · intro css baseUrl li st hli hlen hfuel
      simp only [runF]
      cases hex : execImportFrom css li with
      | none => simp
      | some pr =>
        obtain ⟨mEnd, raw⟩ := pr
        have hbounds := execImportFrom_facts hex
        dsimp only
        by_cases hu : trimStr raw = ([] : Str)
        · rw [if_pos hu]
          exact ih.2 css baseUrl mEnd st (by omega) (by omega) (by omega)
        · rw [if_neg hu]
          by_cases hv : resolveUrl (trimStr raw) baseUrl ∈ st.visited
          · rw [if_pos hv]
            exact ih.2 css baseUrl mEnd st (by omega) (by omega) (by omega)
          · rw [if_neg hv]
            set absu := resolveUrl (trimStr raw) baseUrl with habs
            set st1 := RState.mk st.fonts (st.visited ++ [absu])
              (st.fetched ++ [absu]) with hst1
            cases hf : fetchText net absu with
            | none =>
              dsimp only
              have hnk := fetchText_none_not_key hf
              have heq := unvisitedCount_eq_of_not_key net st.visited absu hnk
              refine ih.2 css baseUrl mEnd st1 (by omega) (by omega) ?_
              rw [hst1]
              dsimp only
              rw [heq]
              omega
            | some text =>
              dsimp only
              have hkey := fetchText_some_key hf
              have hdec := unvisitedCount_lt net st.visited absu hkey hv
              have htlen := hK _ _ hf
              have hmulK : (unvisitedCount net (st.visited ++ [absu]) + 1) * K ≤
                  unvisitedCount net st.visited * K :=
                Nat.mul_le_mul_right K hdec
              rw [Nat.succ_mul] at hmulK
              have hinner : (runF net fuel (.proc text absu st1)).isSome = true := by
                refine ih.1 text absu st1 htlen ?_
                rw [hst1]
                dsimp only
                omega
              cases hr : runF net fuel (.proc text absu st1) with
              | none => rw [hr] at hinner; cases hinner
              | some st2 =>
                dsimp only
                have hmono := (runF_mono_inv net fuel _ st2 hr).1
                have hsub : ∀ x ∈ st.visited ++ [absu], x ∈ st2.visited := by
                  intro x hx
                  have hvst : st1.visited = st.visited ++ [absu] := by rw [hst1]
                  exact hmono.subset (hvst ▸ hx)
                have hm2 := unvisitedCount_mono net _ st2.visited hsub
                have hmul2 : unvisitedCount net st2.visited * K ≤
                    unvisitedCount net (st.visited ++ [absu]) * K :=
                  Nat.mul_le_mul_right K hm2
                exact ih.2 css baseUrl 0 st2 (by omega) (by omega) (by omega)

/-!
## Driver-level invariants and termination
-/

theorem stylesLoop_inv (net : List (Str × Str)) (fuel : Nat) (docBase : Str) :
    ∀ styles st st', stylesLoop net fuel docBase styles st = some st' →
      FetchInv st → FetchInv st' := by
  intro styles
  induction styles with
  | nil =>
    intro st st' h hinv
    simp [stylesLoop] at h
    exact h ▸ hinv
  | cons cssText rest ih =>
    intro st st' h hinv
    simp only [stylesLoop] at h
    cases hr : runF net fuel (.proc cssText docBase st) with
    | none => rw [hr] at h; cases h
    | some st2 =>
      rw [hr] at h
      have := (runF_mono_inv net fuel _ st2 hr).2 hinv
      exact ih st2 st' h this

theorem linksLoop_inv (env : HostEnv) (fuel : Nat) (docBase : Str) :
    ∀ links st st', linksLoop env fuel docBase links st = some st' →
      FetchInv st → FetchInv st' := by
  intro links
  induction links with
  | nil =>
    intro st st' h hinv
    simp [linksLoop] at h
    exact h ▸ hinv
  | cons l rest ih =>
    intro st st' h hinv
    simp only [linksLoop] at h
    by_cases h1 : linkRelSkip l = true
    · rw [if_pos h1] at h
      exact ih st st' h hinv
    · rw [if_neg h1] at h
      by_cases h2 : linkMediaSkip env l = true
      · rw [if_pos h2] at h
        exact ih st st' h hinv
      · rw [if_neg h2] at h
        by_cases h3 : trimStr (l.href.getD []) = ([] : Str)
        · rw [if_pos h3] at h
          exact ih st st' h hinv
        · rw [if_neg h3] at h
          by_cases h4 : linkAbsHref docBase l ∈ st.visited
          · rw [if_pos h4] at h
            exact ih st st' h hinv
          · rw [if_neg h4] at h
            cases hf : fetchText env.net (linkAbsHref docBase l) with
            | none =>
              rw [hf] at h
              exact ih _ st' h (fetchInv_extend hinv h4)
            | some text =>
              rw [hf] at h
              dsimp only at h
              cases hr : runF env.net fuel (.proc text (linkAbsHref docBase l)
                  { st with visited := st.visited ++ [linkAbsHref docBase l],
                            fetched := st.fetched ++ [linkAbsHref docBase l] }) with
              | none => rw [hr] at h; cases h
              | some st2 =>
                rw [hr] at h
                exact ih st2 st' h
                  ((runF_mono_inv env.net fuel _ st2 hr).2
                    (fetchInv_extend hinv h4))

/-- Longest style source: net bodies and inline styles. -/
def maxSrcLen (net : List (Str × Str)) (styles : List Str) : Nat :=
  ((net.map fun p => p.2.length) ++ styles.map List.length).foldr max 0

/-- The per-source fuel unit of the termination bound. -/
def bigK (net : List (Str × Str)) (styles : List Str) : Nat :=
  maxSrcLen net styles + 3

/-- Canonical fuel: one unit per distinct network key, plus one. -/
def fuelBound (net : List (Str × Str)) (styles : List Str) : Nat :=
  (netKeys net).length * bigK net styles + bigK net styles

theorem bigK_net (styles : List Str) {net : List (Str × Str)} {u t : Str}
    (h : fetchText net u = some t) : t.length + 3 ≤ bigK net styles := by
  have hmem := fetchText_some_mem h
  have : t.length ∈ ((net.map fun p => p.2.length) ++ styles.map List.length) := by
    refine List.mem_append.mpr (Or.inl ?_)
    exact List.mem_map.mpr ⟨(u, t), hmem, rfl⟩
  have := le_foldr_max _ _ this
  unfold bigK maxSrcLen
  omega

theorem bigK_style (net : List (Str × Str)) {styles : List Str} {s : Str}
    (h : s ∈ styles) : s.length + 3 ≤ bigK net styles := by
  have : s.length ∈ ((net.map fun p => p.2.length) ++ styles.map List.length) := by
    refine List.mem_append.mpr (Or.inr ?_)
    exact List.mem_map.mpr ⟨s, h, rfl⟩
  have := le_foldr_max _ _ this
  unfold bigK maxSrcLen
  omega

theorem unvisitedCount_le (net : List (Str × Str)) (v : List Str) :
    unvisitedCount net v ≤ (netKeys net).length :=
  List.length_filter_le _ _

theorem runF_proc_adequate_bound (net : List (Str × Str)) (styles0 : List Str)
    (cssRaw baseUrl : Str) (st : RState) (hlen : cssRaw.length + 3 ≤ bigK net styles0) :
    (runF net (fuelBound net styles0) (.proc cssRaw baseUrl st)).isSome = true := by
  refine (runF_adequate net (bigK net styles0) (fun u t h => bigK_net styles0 h) _).1
    cssRaw baseUrl st hlen ?_
  have h1 := unvisitedCount_le net st.visited
  have h2 : unvisitedCount net st.visited * bigK net styles0 ≤
      (netKeys net).length * bigK net styles0 :=
    Nat.mul_le_mul_right _ h1
  unfold fuelBound
  omega

theorem stylesLoop_adequate (net : List (Str × Str)) (docBase : Str)
    (styles0 : List Str) :
    ∀ styles st, (∀ s ∈ styles, s ∈ styles0) →
      (stylesLoop net (fuelBound net styles0) docBase styles st).isSome = true := by
  intro styles
  induction styles with
  | nil => intro st _; simp [stylesLoop]
  | cons cssText rest ih =>
    intro st hsub
    simp only [stylesLoop]
    have hlen := bigK_style net (hsub cssText (List.mem_cons_self _ _))
    have := runF_proc_adequate_bound net styles0 cssText docBase st hlen
    cases hr : runF net (fuelBound net styles0) (.proc cssText docBase st) with
    | none => rw [hr] at this; cases this
    | some st2 =>
      exact ih st2 (fun s hs => hsub s (List.mem_cons_of_mem _ hs))

theorem linksLoop_adequate (env : HostEnv) (docBase : Str) (styles0 : List Str) :
    ∀ links st,
      (linksLoop env (fuelBound env.net styles0) docBase links st).isSome = true := by
  intro links
  induction links with
  | nil => intro st; simp [linksLoop]
  | cons l rest ih =>
    intro st
    simp only [linksLoop]
    by_cases h1 : linkRelSkip l = true
    · rw [if_pos h1]
      exact ih st
    · rw [if_neg h1]
      by_cases h2 : linkMediaSkip env l = true
      · rw [if_pos h2]
        exact ih st
      · rw [if_neg h2]
        by_cases h3 : trimStr (l.href.getD []) = ([] : Str)
        · rw [if_pos h3]
          exact ih st
        · rw [if_neg h3]
          by_cases h4 : linkAbsHref docBase l ∈ st.visited
          · rw [if_pos h4]
            exact ih st
          · rw [if_neg h4]
            cases hf : fetchText env.net (linkAbsHref docBase l) with
            | none => exact ih _
            | some text =>
              dsimp only
              have hlen := bigK_net styles0 hf
              have hin := runF_proc_adequate_bound env.net styles0 text
                (linkAbsHref docBase l)
                { st with visited := st.visited ++ [linkAbsHref docBase l],
                          fetched := st.fetched ++ [linkAbsHref docBase l] } hlen
              cases hr : runF env.net (fuelBound env.net styles0) (.proc text
                  (linkAbsHref docBase l)
                  { st with visited := st.visited ++ [linkAbsHref docBase l],
                            fetched := st.fetched ++ [linkAbsHref docBase l] }) with
              | none => rw [hr] at hin; cases hin
              | some st2 => exact ih st2

/-- The canonical fuel of one collector run. -/
def collectFuel (net : List (Str × Str)) (d : HtmlDoc) : Nat :=
  fuelBound net d.styles

/-!
## Claim theorems
-/

/-- C3: every `injectFontFaces` call preserves the sink's prior text as
a prefix, appends only rules not already contained as substrings of the
sink text at call start (`newRules` filters by `strContains`), joins the
newly appended rules with single newlines (`joinNL`), and leaves the
sink text unchanged when no rule is new. -/
theorem injectFontFaces_append_only_dedup (rules : List Str) (sinkText : Str) :
    sinkText <+: injectFontFaces rules sinkText ∧
    injectFontFaces rules sinkText =
      (if newRules rules sinkText = [] then sinkText
       else
         (sinkText ++ (if sinkText ≠ [] then ['\n'] else [])) ++
           joinNL (newRules rules sinkText)) := by
  refine ⟨?_, injectFontFaces_eq rules sinkText⟩
  rw [injectFontFaces_eq]
  by_cases hn : newRules rules sinkText = []
  · simp [hn]
  · simp only [hn, if_neg]
    rw [List.append_assoc]
    exact ⟨_, rfl⟩

/-- The clear loop always empties the child list. -/
theorem clearLoop_eq_nil (l : List Node) : clearLoop l = [] := by
  induction l with
  | nil => rfl
  | cons n rest ih => simpa [clearLoop] using ih

/-- C9: `clearShadowRoot` removes exactly the target's children (the
result has none), leaves the target's identity unchanged, and is the
identity on an already-empty target. -/
theorem clearShadowRoot_spec (sr : Shadow) :
    (clearShadowRoot sr).children = [] ∧
    (clearShadowRoot sr).sid = sr.sid ∧
    (sr.children = [] → clearShadowRoot sr = sr) := by
  refine ⟨clearLoop_eq_nil sr.children, rfl, ?_⟩
  intro h
  cases sr with
  | mk sid children =>
    simp only [clearShadowRoot]
    simp at h
    simp [h, clearLoop]

/-- C5: `extractFontFaceBlocks` processes a source left to right and
stops at the first `@font-face` block whose braces never balance (the
brace scan runs off the end of the source) or that has no opening brace
at all, returning exactly the blocks extracted before that point: a
malformed candidate yields `[]` from its scan position, and a
well-formed candidate contributes its trimmed block and continues after
it.  Each source is processed by its own pure call, so separately
processed sources are unaffected. -/
theorem extractFontFaceBlocks_stop_at_unbalanced (css : Str) :
    extractFontFaceBlocks css = extractFromPos css 0 ∧
    (∀ pos start braceStart,
      findFrom css ffTok pos = some start →
      findFrom css [lbrace] start = some braceStart →
      braceScan (css.drop (braceStart + 1)) 1 = none →
      extractFromPos css pos = []) ∧
    (∀ pos start,
      findFrom css ffTok pos = some start →
      findFrom css [lbrace] start = none →
      extractFromPos css pos = []) ∧
    (∀ pos start braceStart k,
      findFrom css ffTok pos = some start →
      findFrom css [lbrace] start = some braceStart →
      braceScan (css.drop (braceStart + 1)) 1 = some k →
      extractFromPos css pos =
        trimStr (sliceStr css start (braceStart + 1 + k)) ::
          extractFromPos css (braceStart + 1 + k)) := by
  refine ⟨?_, ?_, ?_, ?_⟩
  · simp [extractFontFaceBlocks, extractFromPos]
  · intro pos start braceStart hff hbr hsc
    have h1 := findFrom_some_facts hff
    obtain ⟨m, hm⟩ : ∃ m, css.length + 1 - pos = m + 1 := ⟨css.length - pos, by omega⟩
    show extractGo css (css.length + 1 - pos) pos = []
    rw [hm]
    simp [extractGo, hff, hbr, hsc]
  · intro pos start hff hbr
    have h1 := findFrom_some_facts hff
    obtain ⟨m, hm⟩ : ∃ m, css.length + 1 - pos = m + 1 := ⟨css.length - pos, by omega⟩
    show extractGo css (css.length + 1 - pos) pos = []
    rw [hm]
    simp [extractGo, hff, hbr]
  · intro pos start braceStart k hff hbr hsc
    have h1 := findFrom_some_facts hff
    have h2 := findFrom_some_facts hbr
    obtain ⟨m, hm⟩ : ∃ m, css.length + 1 - pos = m + 1 := ⟨css.length - pos, by omega⟩
    show extractGo css (css.length + 1 - pos) pos = _
    rw [hm]
    simp only [extractGo, hff, hbr, hsc]
    have hcong := extractGo_fuel_congr css m (css.length + 1 - (braceStart + 1 + k))
      (braceStart + 1 + k) (by omega) (by omega)
    rw [hcong]
    rfl

/-- C5 witness: on a source with one well-formed block followed by an
unbalanced one, extraction returns exactly the first block, and from the
malformed position it returns nothing. -/
theorem extractFontFaceBlocks_stop_witness :
    extractFontFaceBlocks (str "@font-face\x7ba\x7d @font-face\x7bb") =
      [str "@font-face\x7ba\x7d"] ∧
    extractFromPos (str "@font-face\x7ba\x7d @font-face\x7bb") 13 = [] := by
  have h := extractFontFaceBlocks_stop_at_unbalanced
    (str "@font-face\x7ba\x7d @font-face\x7bb")
  have hbad : extractFromPos (str "@font-face\x7ba\x7d @font-face\x7bb") 13 = [] :=
    h.2.1 13 14 24 (by decide) (by decide) (by decide)
  refine ⟨?_, hbad⟩
  have hgood := h.2.2.2 0 0 10 2 (by decide) (by decide) (by decide)
  rw [h.1, hgood, hbad]
  decide

/-- C4: for every `url(...)` match, the replacement resolves the
trimmed target against the stylesheet base via the URL model when the
target is relative, and leaves the target untouched when it begins with
`data:`, `blob:`, `http:`, `https:`, `//` or `#` (case-insensitively);
concretely, a relative `url(../fonts/a.woff2)` inside a `@font-face`
block fetched from `https://example.com/styles/x.css` becomes
`url(https://example.com/fonts/a.woff2)`, and a `data:` target is left
byte-identical. -/
theorem rebaseUrls_resolves_and_protects :
    (∀ (m : UrlMatch) (base : Str), isProtectedUrl (trimStr m.content) = true →
      rebaseReplace m base =
        str "url(" ++ quoteStr m.q ++ trimStr m.content ++ quoteStr m.q ++ [')']) ∧
    (∀ (m : UrlMatch) (base : Str), isProtectedUrl (trimStr m.content) = false →
      rebaseReplace m base =
        str "url(" ++ quoteStr m.q ++ resolveUrl (trimStr m.content) base ++
          quoteStr m.q ++ [')']) ∧
    rebaseUrls (str "@font-face\x7bsrc:url(../fonts/a.woff2)\x7d")
        (str "https://example.com/styles/x.css") =
      str "@font-face\x7bsrc:url(https://example.com/fonts/a.woff2)\x7d" ∧
    rebaseUrls (str "@font-face\x7bsrc:url(data:font/woff2;base64,AAAA)\x7d")
        (str "https://example.com/styles/x.css") =
      str "@font-face\x7bsrc:url(data:font/woff2;base64,AAAA)\x7d" := by
  refine ⟨?_, ?_, by decide, by decide⟩
  · intro m base h
    simp [rebaseReplace, h]
  · intro m base h
    simp [rebaseReplace, resolveUrl, h]

/-- C4 witness: the protected branch applied to a concrete `data:`
match and the resolving branch applied to a concrete relative match. -/
theorem rebaseUrls_resolves_witness :
    rebaseReplace ⟨.bare, str "data:font/woff2;base64,AAAA"⟩
        (str "https://example.com/styles/x.css") =
      str "url(data:font/woff2;base64,AAAA)" ∧
    rebaseReplace ⟨.bare, str "../fonts/a.woff2"⟩
        (str "https://example.com/styles/x.css") =
      str "url(https://example.com/fonts/a.woff2)" := by
  constructor
  · rw [rebaseUrls_resolves_and_protects.1 ⟨.bare, str "data:font/woff2;base64,AAAA"⟩
      (str "https://example.com/styles/x.css") (by decide)]
    decide
  · rw [rebaseUrls_resolves_and_protects.2.1 ⟨.bare, str "../fonts/a.woff2"⟩
      (str "https://example.com/styles/x.css") (by decide)]
    decide

/-- C1: in one top-level resolution pass, each distinct absolute URL —
whether reached as an `@import` target or as a linked stylesheet href,
both of which record into the same visited set and fetch trace — is
passed to `fetch` at most once (the trace is duplicate-free), and
resolution terminates for every network and document, cyclic import
graphs (self-imports and chains back to visited URLs) included: the
canonical fuel `collectFuel` always suffices. -/
theorem collectFontFaceRules_cycle_safe_fetch_once (env : HostEnv) (d : HtmlDoc) :
    (collectFontFaceRules env (collectFuel env.net d) d).isSome = true ∧
    (∀ fuel st', collectFontFaceRules env fuel d = some st' →
      st'.fetched.Nodup) := by
  constructor
  · simp only [collectFontFaceRules, collectFuel]
    cases hs : stylesLoop env.net (fuelBound env.net d.styles)
        (getDocBaseUrl env d.baseHref) d.styles ⟨[], [], []⟩ with
    | none =>
      have := stylesLoop_adequate env.net (getDocBaseUrl env d.baseHref)
        d.styles d.styles ⟨[], [], []⟩ (fun s hs => hs)
      rw [hs] at this
      cases this
    | some st1 =>
      exact linksLoop_adequate env (getDocBaseUrl env d.baseHref) d.styles
        (d.links.filter linkMatchesSelector) st1
  · intro fuel st' h
    simp only [collectFontFaceRules] at h
    cases hs : stylesLoop env.net fuel (getDocBaseUrl env d.baseHref)
        d.styles ⟨[], [], []⟩ with
    | none => rw [hs] at h; cases h
    | some st1 =>
      rw [hs] at h
      have h0 : FetchInv ⟨[], [], []⟩ := ⟨List.nodup_nil, by simp⟩
      have h1 := stylesLoop_inv env.net fuel (getDocBaseUrl env d.baseHref)
        d.styles ⟨[], [], []⟩ st1 hs h0
      exact (linksLoop_inv env fuel (getDocBaseUrl env d.baseHref)
        (d.links.filter linkMatchesSelector) st1 st' h h1).1

/-- Concrete cyclic-network example: one stylesheet that imports itself
via a relative URL, linked twice from the document. -/
def cycleNet : List (Str × Str) :=
  [(str "https://e.com/a.css", str "@import url(a.css);")]

/-- Host environment of the cyclic example. -/
def cycleEnv : HostEnv :=
  ⟨cycleNet, str "https://e.com/", str "https://e.com/", false, fun _ => none⟩

/-- A stylesheet link to `a.css`. -/
def cycleLink : LinkTag := ⟨str "stylesheet", none, some (str "a.css"), false, none⟩

/-- Document of the cyclic example: two duplicate links to `a.css`. -/
def cycleDoc : HtmlDoc :=
  ⟨[], [cycleLink, cycleLink], none, .elem (str "html") [] []⟩

/-- C1 witness: on a self-importing stylesheet linked twice, resolution
finishes with exactly one fetch of `a.css`, and the fetch trace is
duplicate-free by the theorem. -/
theorem collectFontFaceRules_cycle_witness :
    collectFontFaceRules cycleEnv 10 cycleDoc =
      some ⟨[], [str "https://e.com/a.css"], [str "https://e.com/a.css"]⟩ ∧
    (RState.mk [] [str "https://e.com/a.css"]
      [str "https://e.com/a.css"]).fetched.Nodup :=
  ⟨by decide,
    (collectFontFaceRules_cycle_safe_fetch_once cycleEnv cycleDoc).2 10
      ⟨[], [str "https://e.com/a.css"], [str "https://e.com/a.css"]⟩ (by decide)⟩

/-- C2: resolving a document's `@font-face` rules and injecting the
resulting rule set into the same sink twice (via
`extractAndInjectFontFaces`) yields a sink equal to injecting once: the
second pass resolves the same rule set, every rule of which is already
contained in the sink, so nothing is appended. -/
theorem extractAndInjectFontFaces_idem (env : HostEnv) (d : HtmlDoc)
    (sink s1 s2 : Str)
    (h1 : extractAndInjectFontFaces env (collectFuel env.net d) d sink = some s1)
    (h2 : extractAndInjectFontFaces env (collectFuel env.net d) d s1 = some s2) :
    s2 = s1 := by
  unfold extractAndInjectFontFaces at h1 h2
  cases hc : collectFontFaceRules env (collectFuel env.net d) d with
  | none => rw [hc] at h1; cases h1
  | some st =>
    rw [hc] at h1 h2
    simp at h1 h2
    by_cases hf : st.fonts = ([] : List Str)
    · simp [hf] at h1 h2
      subst h1
      exact h2.symm
    · simp [hf] at h1 h2
      subst h1
      subst h2
      exact injectFontFaces_idem st.fonts sink

/-- Network/document pair of the idempotence witness: one inline
`@font-face` rule with a relative source URL. -/
def idemDoc : HtmlDoc :=
  ⟨[str "@font-face\x7bsrc:url(f.woff2)\x7d"], [], none, .elem (str "html") [] []⟩

/-- Host environment of the idempotence witness (no network). -/
def idemEnv : HostEnv :=
  ⟨[], str "https://e.com/", str "https://e.com/", false, fun _ => none⟩

/-- Sink text after a first injection, as the program computes it. -/
def idemSink1 : Str :=
  (extractAndInjectFontFaces idemEnv (collectFuel idemEnv.net idemDoc) idemDoc []).getD []

/-- Sink text after a second injection, as the program computes it. -/
def idemSink2 : Str :=
  (extractAndInjectFontFaces idemEnv (collectFuel idemEnv.net idemDoc) idemDoc
    idemSink1).getD []

/-- C2 witness: the second injection of the concrete example leaves the
sink exactly as after the first. -/
theorem extractAndInjectFontFaces_idem_witness : idemSink2 = idemSink1 :=
  extractAndInjectFontFaces_idem idemEnv idemDoc [] idemSink1 idemSink2
    (by decide) (by decide)

/-- C6: calling the render entry point twice in succession on the same
target leaves the target containing exactly the second call's imported
content — the deep copy of the second parse's root — and nothing from
the first pass, with the target's identity preserved. -/
theorem renderIntoShadowRoot_second_replaces (env : RenderEnv)
    (fuel1 fuel2 : Nat) (sr : Shadow) (html1 html2 sink : Str)
    (out1 out2 : Shadow × Str × List REv)
    (h1 : renderIntoShadowRoot env fuel1 sr html1 sink = some out1)
    (h2 : renderIntoShadowRoot env fuel2 out1.1 html2 out1.2.1 = some out2) :
    out2.1.children =
      [cloneNode (env.parseHtml (env.normalizeHtml html2)).documentElement] ∧
    out2.1.sid = sr.sid := by
  unfold renderIntoShadowRoot at h1 h2
  dsimp only at h1 h2
  cases hc1 : collectFontFaceRules env.host fuel1
      (env.parseHtml (env.normalizeHtml html1)) with
  | none => rw [hc1] at h1; cases h1
  | some st1 =>
    rw [hc1] at h1
    cases hc2 : collectFontFaceRules env.host fuel2
        (env.parseHtml (env.normalizeHtml html2)) with
    | none => rw [hc2] at h2; cases h2
    | some st2 =>
      rw [hc2] at h2
      simp at h1 h2
      rw [← h2]
      constructor
      · simp [clearLoop_eq_nil]
      · rw [← h1]

/-- C10: after a successful render the target contains exactly one
child: the deep structural copy of the parsed document's root element,
regardless of the shape of the raw input. -/
theorem renderIntoShadowRoot_single_root (env : RenderEnv) (fuel : Nat)
    (sr : Shadow) (html sink : Str) (out : Shadow × Str × List REv)
    (h : renderIntoShadowRoot env fuel sr html sink = some out) :
    out.1.children =
      [cloneNode (env.parseHtml (env.normalizeHtml html)).documentElement] ∧
    out.1.children.length = 1 := by
  unfold renderIntoShadowRoot at h
  dsimp only at h
  cases hc : collectFontFaceRules env.host fuel
      (env.parseHtml (env.normalizeHtml html)) with
  | none => rw [hc] at h; cases h
  | some st =>
    rw [hc] at h
    simp at h
    rw [← h]
    constructor
    · simp [clearLoop_eq_nil]
    · simp [clearLoop_eq_nil]

/-- C7: `renderIntoShadowRoot` — the script-disabled render mode — never
instantiates or executes a script: its event trace consists of fetches
only (there is no script extraction or replay step in the function), and
the parsed tree, scripts included, is imported as inert structure. -/
theorem renderIntoShadowRoot_no_script_execution (env : RenderEnv)
    (fuel : Nat) (sr : Shadow) (html sink : Str)
    (out : Shadow × Str × List REv)
    (h : renderIntoShadowRoot env fuel sr html sink = some out) :
    (∀ e ∈ out.2.2, ∃ u, e = REv.fetchEv u) ∧
    out.1.children =
      [cloneNode (env.parseHtml (env.normalizeHtml html)).documentElement] := by
  unfold renderIntoShadowRoot at h
  dsimp only at h
  cases hc : collectFontFaceRules env.host fuel
      (env.parseHtml (env.normalizeHtml html)) with
  | none => rw [hc] at h; cases h
  | some st =>
    rw [hc] at h
    simp at h
    constructor
    · intro e he
      rw [← h] at he
      simp at he
      rcases he with ⟨u, _, hu⟩
      exact ⟨u, hu.symm⟩
    · rw [← h]
      simp [clearLoop_eq_nil]

/-- Render environment of the renderer witnesses: a parser producing an
`html` root around the input text, identity normalisation, no network. -/
def wEnv : RenderEnv :=
  ⟨idemEnv, fun s => ⟨[], [], none, .elem (str "html") [] [.text s]⟩, fun s => s⟩

/-- A nonempty shadow root used by the renderer witnesses. -/
def wShadow : Shadow := ⟨7, [.text (str "old")]⟩

/-- C6 witness: two successive renders of different inputs leave only
the second input's imported tree, with the target identity preserved. -/
theorem renderIntoShadowRoot_second_replaces_witness :
    renderIntoShadowRoot wEnv 5 wShadow (str "one") [] =
      some (⟨7, [.elem (str "html") [] [.text (str "one")]]⟩, [], []) ∧
    (renderIntoShadowRoot wEnv 5
        (⟨7, [.elem (str "html") [] [.text (str "one")]]⟩ : Shadow)
        (str "two") [] =
      some (⟨7, [.elem (str "html") [] [.text (str "two")]]⟩, [], [])) ∧
    ([Node.elem (str "html") [] [.text (str "two")]] =
      [cloneNode (wEnv.parseHtml (wEnv.normalizeHtml (str "two"))).documentElement] ∧
     (7 : Nat) = wShadow.sid) :=
  ⟨rfl, rfl,
    renderIntoShadowRoot_second_replaces wEnv 5 5 wShadow (str "one") (str "two") []
      (⟨7, [.elem (str "html") [] [.text (str "one")]]⟩, [], [])
      (⟨7, [.elem (str "html") [] [.text (str "two")]]⟩, [], []) rfl rfl⟩

/-- C10 witness: a successful concrete render leaves exactly the copied
root element as the single child. -/
theorem renderIntoShadowRoot_single_root_witness :
    [Node.elem (str "html") [] [.text (str "hi")]] =
      [cloneNode (wEnv.parseHtml (wEnv.normalizeHtml (str "hi"))).documentElement] ∧
    [Node.elem (str "html") [] [.text (str "hi")]].length = 1 :=
  renderIntoShadowRoot_single_root wEnv 5 wShadow (str "hi") []
    (⟨7, [.elem (str "html") [] [.text (str "hi")]]⟩, [], []) rfl

/-- C7 witness: a concrete render containing a script element in the
input produces a trace without script events and imports the script as
inert structure. -/
theorem renderIntoShadowRoot_no_script_witness :
    (∀ e ∈ ([] : List REv), ∃ u, e = REv.fetchEv u) ∧
    [Node.elem (str "html") [] [.text (str "<script>x()</script>")]] =
      [cloneNode (wEnv.parseHtml
        (wEnv.normalizeHtml (str "<script>x()</script>"))).documentElement] :=
  renderIntoShadowRoot_no_script_execution wEnv 5 wShadow
    (str "<script>x()</script>") []
    (⟨7, [.elem (str "html") [] [.text (str "<script>x()</script>")]]⟩, [], []) rfl

/-- C9 witness: clearing an already-empty shadow root is a no-op and
leaves it empty. -/
theorem clearShadowRoot_spec_witness :
    (clearShadowRoot ⟨3, []⟩).children = [] ∧
      clearShadowRoot ⟨3, []⟩ = (⟨3, []⟩ : Shadow) :=
  ⟨(clearShadowRoot_spec ⟨3, []⟩).1, (clearShadowRoot_spec ⟨3, []⟩).2.2 rfl⟩

/-!
## Sequential replay ordering
-/

/-- The script a replay event belongs to, if any. -/
def scriptEvId : REv → Option Str
  | .scriptStartEv i => some i
  | .scriptEndEv i => some i
  | _ => none

/-- The sequential bucket, in source order. -/
def seqBucket (scripts : List ScriptMeta) : List ScriptMeta :=
  scripts.filter (fun m => decide (classifyScript m = .seqC))

theorem nodup_map_inj {α β : Type} {f : α → β} {l : List α}
    (h : (l.map f).Nodup) :
    ∀ x ∈ l, ∀ y ∈ l, f x = f y → x = y := by
  induction l with
  | nil => intro x hx; cases hx
  | cons a t ih =>
    simp only [List.map_cons, List.nodup_cons] at h
    intro x hx y hy hxy
    rcases List.mem_cons.mp hx with h1 | h1
    · rcases List.mem_cons.mp hy with h2 | h2
      · rw [h1, h2]
      · exfalso
        apply h.1
        rw [h1] at hxy
        exact List.mem_map.mpr ⟨y, h2, hxy.symm⟩
    · rcases List.mem_cons.mp hy with h2 | h2
      · exfalso
        apply h.1
        rw [h2] at hxy
        exact List.mem_map.mpr ⟨x, h1, hxy⟩
      · exact ih h.2 x h1 y h2 hxy

/-- A script outside the sequential bucket never has a sequential
script's id, given ids are unique per render call. -/
theorem not_seq_id {scripts : List ScriptMeta} {m : ScriptMeta}
    (hids : (scripts.map ScriptMeta.id).Nodup)
    (hm : m ∈ scripts) (hc : classifyScript m ≠ .seqC) :
    m.id ∉ (seqBucket scripts).map ScriptMeta.id := by
  intro hmem
  rcases List.mem_map.mp hmem with ⟨m2, hm2, hid⟩
  have hm2s : m2 ∈ scripts := List.mem_of_mem_filter hm2
  have hm2c : classifyScript m2 = .seqC := by
    have := List.of_mem_filter hm2
    simpa using this
  have : m2 = m := nodup_map_inj hids m2 hm2s m hm hid
  rw [this] at hm2c
  exact hc hm2c

/-- C8: during replay, the events belonging to the sequential bucket are
exactly the sequential bucket's scripts in source order, each script's
start immediately followed by its awaited completion before the next
script's start: the engine replays the sequential class strictly in
source order, one at a time.  Script ids are unique per render call (the
placeholder invariant of the design). -/
theorem replayScripts_sequential_order (scripts : List ScriptMeta)
    (hids : (scripts.map ScriptMeta.id).Nodup) :
    (replayScripts scripts).filter
        (fun e => match scriptEvId e with
          | some i => decide (i ∈ (seqBucket scripts).map ScriptMeta.id)
          | none => false) =
      (seqBucket scripts).flatMap replayOneTrace := by
  unfold replayScripts
  rw [List.filter_append, List.filter_append]
  have hseq : (List.filter
      (fun e => match scriptEvId e with
          | some i => decide (i ∈ (seqBucket scripts).map ScriptMeta.id)
          | none => false)
      ((scripts.filter
      (fun m => decide (classifyScript m = .seqC))).flatMap replayOneTrace)) =
      (seqBucket scripts).flatMap replayOneTrace := by
    refine List.filter_eq_self.mpr ?_
    intro e he
    rcases List.mem_flatMap.mp he with ⟨m, hm, hev⟩
    have hmid : m.id ∈ (seqBucket scripts).map ScriptMeta.id :=
      List.mem_map.mpr ⟨m, hm, rfl⟩
    rcases List.mem_cons.mp hev with h1 | h1
    · subst h1
      simp [scriptEvId, hmid]
    · rcases List.mem_cons.mp h1 with h2 | h2
      · subst h2
        simp [scriptEvId, hmid]
      · cases h2
  have hasync : (List.filter
      (fun e => match scriptEvId e with
          | some i => decide (i ∈ (seqBucket scripts).map ScriptMeta.id)
          | none => false)
      ((scripts.filter
      (fun m => decide (classifyScript m = .asyncC))).map
        (fun m => REv.scriptStartEv m.id))) = [] := by
    refine List.filter_eq_nil_iff.mpr ?_
    intro e he
    rcases List.mem_map.mp he with ⟨m, hm, hev⟩
    have hms : m ∈ scripts := List.mem_of_mem_filter hm
    have hmc : classifyScript m = .asyncC := by
      have := List.of_mem_filter hm
      simpa using this
    have hni := not_seq_id hids hms (by rw [hmc]; intro hx; cases hx)
    subst hev
    simp [scriptEvId, hni]
  have hdefer : (List.filter
      (fun e => match scriptEvId e with
          | some i => decide (i ∈ (seqBucket scripts).map ScriptMeta.id)
          | none => false)
      (REv.settleEv :: ((scripts.filter
      (fun m => decide (classifyScript m = .deferC))).flatMap
        replayOneTrace))) = [] := by
    rw [List.filter_cons]
    have hsettle : (match scriptEvId REv.settleEv with
        | some i => decide (i ∈ (seqBucket scripts).map ScriptMeta.id)
        | none => false) = false := by
      simp [scriptEvId]
    rw [hsettle]
    rw [if_neg (by simp : ¬(false = true))]
    refine List.filter_eq_nil_iff.mpr ?_
    intro e he
    rcases List.mem_flatMap.mp he with ⟨m, hm, hev⟩
    have hms : m ∈ scripts := List.mem_of_mem_filter hm
    have hmc : classifyScript m = .deferC := by
      have := List.of_mem_filter hm
      simpa using this
    have hni := not_seq_id hids hms (by rw [hmc]; intro hx; cases hx)
    rcases List.mem_cons.mp hev with h1 | h1
    · subst h1
      simp [scriptEvId, hni]
    · rcases List.mem_cons.mp h1 with h2 | h2
      · subst h2
        simp [scriptEvId, hni]
      · cases h2
  rw [hseq, hasync, hdefer]
  simp

/-- The three inline sequential scripts of the ordering scenario. -/
def demoScripts : List ScriptMeta :=
  [⟨str "s1", [], some (str "order.push(1)"), false, false, false, false⟩,
   ⟨str "s2", [], some (str "order.push(2)"), false, false, false, false⟩,
   ⟨str "s3", [], some (str "order.push(3)"), false, false, false, false⟩]

/-- C8 witness: three inline sequential scripts replay in source order,
each completing before the next starts. -/
theorem replayScripts_sequential_order_witness :
    (replayScripts demoScripts).filter
        (fun e => match scriptEvId e with
          | some i => decide (i ∈ (seqBucket demoScripts).map ScriptMeta.id)
          | none => false) =
      [REv.scriptStartEv (str "s1"), REv.scriptEndEv (str "s1"),
       REv.scriptStartEv (str "s2"), REv.scriptEndEv (str "s2"),
       REv.scriptStartEv (str "s3"), REv.scriptEndEv (str "s3")] :=
  (replayScripts_sequential_order demoScripts (by decide)).trans (by decide)

end ShadowHtml
